import Mathlib

/-!
Verification development for the server-users terminal monitor
(sources: src/src/main.rs, src/src/ui.rs, src/src/ssh.rs).

The Rust program is shallowly embedded below.  Machine floats (f64) are
idealized as exact values: NaN, the two infinities, and a rational number
(rounding is ignored; this development never relies on rounding).  Rust's
partial comparison on f64, whose unwrap in the sorting code can panic on
NaN, is embedded as an Option-valued comparison, and the possibly-panicking
stable sort is embedded as an Option-valued stable insertion sort (for a
total comparison a stable sort's output is unique, so insertion sort is an
exact model of Rust's stable sort_by; the panic is modelled as none).
Timestamps (chrono DateTime) are opaque and embedded as Nat.
-/

/-- Idealized Rust f64 value: NaN, plus-infinity, minus-infinity, or an
exact finite value represented as a rational. -/
inductive F64 where
  | nan
  | inf
  | negInf
  | num (q : ℚ)
deriving DecidableEq, Repr

/-- Embeds f64 partial comparison (Rust PartialOrd::partial_cmp on f64):
none exactly when one side is NaN; infinities compare in the usual way. -/
def F64.cmp? : F64 → F64 → Option Ordering
  | nan, _ => none
  | _, nan => none
  | inf, inf => some Ordering.eq
  | inf, _ => some Ordering.gt
  | _, inf => some Ordering.lt
  | negInf, negInf => some Ordering.eq
  | negInf, _ => some Ordering.lt
  | _, negInf => some Ordering.gt
  | num a, num b => some (if a < b then Ordering.lt else if b < a then Ordering.gt else Ordering.eq)

/-- Embeds f64 addition in the idealized (exact) arithmetic: NaN propagates,
inf + negInf is NaN, infinities absorb finite values. -/
def F64.add : F64 → F64 → F64
  | nan, _ => nan
  | _, nan => nan
  | inf, negInf => nan
  | negInf, inf => nan
  | inf, _ => inf
  | _, inf => inf
  | negInf, _ => negInf
  | _, negInf => negInf
  | num a, num b => num (a + b)

/-- Embeds Iterator::sum over f64 (fold from 0.0), as used for the
cpu_total/ram_total aggregates in App::update_data. -/
def F64.sum (l : List F64) : F64 := l.foldl F64.add (F64.num 0)

/-- Digit run to a natural number (helper for the float parser). -/
def digitsToNat (ds : List Char) : Nat :=
  ds.foldl (fun n c => 10 * n + (c.toNat - Char.toNat '0')) 0

/-- Parses the significand part of a decimal float literal: Digits, or
Digits '.' [Digits], or [Digits] '.' Digits; returns the exact value and the
unconsumed rest.  Helper for parseF64. -/
def parseDecMantissa (cs : List Char) : Option (ℚ × List Char) :=
  let intDs := cs.takeWhile (fun c => c.isDigit)
  let rest1 := cs.dropWhile (fun c => c.isDigit)
  match rest1 with
  | '.' :: rest2 =>
    let fracDs := rest2.takeWhile (fun c => c.isDigit)
    let rest3 := rest2.dropWhile (fun c => c.isDigit)
    if intDs.isEmpty && fracDs.isEmpty then none
    else some ((digitsToNat intDs : ℚ) + (digitsToNat fracDs : ℚ) / (10 : ℚ) ^ fracDs.length, rest3)
  | _ =>
    if intDs.isEmpty then none
    else some ((digitsToNat intDs : ℚ), rest1)

/-- Parses the optional exponent suffix of a float literal:
empty, or (e|E) [sign] Digits consuming the whole rest.  Helper for parseF64. -/
def parseExpPart (cs : List Char) : Option Int :=
  match cs with
  | [] => some 0
  | e :: rest =>
    if e = 'e' ∨ e = 'E' then
      let signAndRest : Bool × List Char :=
        match rest with
        | '+' :: r => (false, r)
        | '-' :: r => (true, r)
        | r => (false, r)
      let ds := signAndRest.2.takeWhile (fun c => c.isDigit)
      let rest3 := signAndRest.2.dropWhile (fun c => c.isDigit)
      if ds.isEmpty || !rest3.isEmpty then none
      else some (if signAndRest.1 then -(digitsToNat ds : Int) else (digitsToNat ds : Int))
    else none

/-- Embeds Rust's FromStr parsing for f64 (str::parse::<f64>()), used with
unwrap_or(0.0) in the metric-line parsing.  Grammar per the Rust standard
library documentation: optional sign, then case-insensitive 'inf',
'infinity' or 'nan', or a decimal significand with optional exponent.
Values are kept exact (no rounding, no overflow to infinity). -/
def parseF64 (s : String) : Option F64 :=
  let signAndBody : Bool × List Char :=
    match s.data with
    | '+' :: r => (false, r)
    | '-' :: r => (true, r)
    | r => (false, r)
  let lower := signAndBody.2.map Char.toLower
  if lower = [ 'i', 'n', 'f'] ∨ lower = [ 'i', 'n', 'f', 'i', 'n', 'i', 't', 'y'] then
    some (if signAndBody.1 then F64.negInf else F64.inf)
  else if lower = [ 'n', 'a', 'n'] then
    some F64.nan
  else
    match parseDecMantissa signAndBody.2 with
    | none => none
    | some qr =>
      match parseExpPart qr.2 with
      | none => none
      | some e => some (F64.num ((if signAndBody.1 then -qr.1 else qr.1) * (10 : ℚ) ^ e))

/-- Splits one line's accumulated characters, stripping a single trailing
carriage return (helper for rustLines, matching Rust's \r\n handling). -/
def chopCR (l : List Char) : List Char :=
  if l.getLast? = some '\r' then l.dropLast else l

/-- Accumulating splitter on newline characters; each segment terminated by
a newline has a trailing carriage return stripped.  Helper for rustLines. -/
def splitLinesAux : List Char → List Char → List (List Char)
  | [], acc => [acc.reverse]
  | c :: rest, acc =>
    if c = '\n' then chopCR acc.reverse :: splitLinesAux rest []
    else splitLinesAux rest (c :: acc)

/-- Embeds Rust str::lines(): split at newline or carriage-return/newline;
the final line ending is optional (no empty final line). -/
def rustLines (s : String) : List String :=
  let parts := splitLinesAux s.data []
  let parts := if parts.getLast? = some [] then parts.dropLast else parts
  parts.map String.mk

/-- Accumulating splitter on whitespace (helper for splitWhitespaceRs). -/
def splitWsAux : List Char → List Char → List String
  | [], acc => if acc.isEmpty then [] else [String.mk acc.reverse]
  | c :: rest, acc =>
    if c.isWhitespace then
      if acc.isEmpty then splitWsAux rest []
      else String.mk acc.reverse :: splitWsAux rest []
    else splitWsAux rest (c :: acc)

/-- Embeds Rust str::split_whitespace(): maximal runs of non-whitespace
characters, empty substrings skipped (ASCII whitespace; the source's lines
contain no exotic Unicode whitespace). -/
def splitWhitespaceRs (s : String) : List String := splitWsAux s.data []

/-- Embeds struct UserStats (src/src/main.rs lines 67-73, src/src/ssh.rs
lines 9-15); last_updated is the opaque timestamp. -/
structure UserStats where
  username : String
  cpu_percent : F64
  ram_mb : F64
  last_updated : Nat
deriving DecidableEq, Repr

/-- Embeds the per-line parsing step of the fetch loop body
(src/src/main.rs lines 322-332, src/src/ssh.rs lines 52-62): a line with at
least 3 whitespace-separated tokens yields one UserStats whose numeric
fields default to 0.0 when unparsable; other lines yield nothing. -/
def parseStatsLine (now : Nat) (line : String) : Option UserStats :=
  match splitWhitespaceRs line with
  | u :: c :: r :: _ =>
    some { username := u
           cpu_percent := (parseF64 c).getD (F64.num 0)
           ram_mb := (parseF64 r).getD (F64.num 0)
           last_updated := now }
  | _ => none

/-- Embeds the parsing for-loop of ssh_get_user_stats (src/src/main.rs
lines 319-332) and get_user_stats (src/src/ssh.rs lines 49-62): iterate
over output.lines(), push one UserStats per line with at least 3 tokens.
now stands for the single Local::now() taken before the loop. -/
def parseUserStats (output : String) (now : Nat) : List UserStats :=
  (rustLines output).foldl (fun users line =>
    match splitWhitespaceRs line with
    | u :: c :: r :: _ =>
      users ++ [{ username := u
                  cpu_percent := (parseF64 c).getD (F64.num 0)
                  ram_mb := (parseF64 r).getD (F64.num 0)
                  last_updated := now }]
    | _ => users) []

/-- Embeds one step of Rust's stable sort_by with the descending comparator
b.key.partial_cmp(&a.key).unwrap() : insertion of x into an already-sorted
prefix; a NaN comparison (partial_cmp = None, unwrap panic) is modelled as
none.  x is placed before the first strictly smaller element, after equal
ones, which is exactly stable descending order. -/
def insertByDesc? {α : Type} (key : α → F64) (x : α) : List α → Option (List α)
  | [] => some [x]
  | y :: ys =>
    match F64.cmp? (key y) (key x) with
    | none => none
    | some Ordering.lt => some (x :: y :: ys)
    | some _ => (insertByDesc? key x ys).map (fun t => y :: t)

/-- Embeds Rust's stable slice::sort_by with the descending-by-key
comparator used throughout the source (main.rs lines 257, 260, 335;
ui.rs lines 239, 242; ssh.rs line 65).  For a comparator that never hits
NaN this is the unique stable descending sort; a NaN comparison is the
modelled unwrap panic (none). -/
def sortByDesc? {α : Type} (key : α → F64) (l : List α) : Option (List α) :=
  l.foldlM (fun acc x => insertByDesc? key x acc) []

/-- Embeds the pure tail of ssh_get_user_stats (src/src/main.rs lines
319-337): parse the remote command output then sort descending by
cpu_percent. -/
def ssh_get_user_stats_pure (output : String) (now : Nat) : Option (List UserStats) :=
  sortByDesc? (fun u => u.cpu_percent) (parseUserStats output now)

/-- Embeds enum AppState (src/src/main.rs lines 29-34). -/
inductive AppState where
  | Config
  | Connecting
  | Monitoring
deriving DecidableEq, Repr

/-- Embeds enum ConfigField (src/src/main.rs lines 36-43). -/
inductive ConfigField where
  | Host
  | Username
  | Password
  | UseSSHKey
  | SSHKeyPath
deriving DecidableEq, Repr

/-- Embeds enum SortBy (src/src/main.rs lines 61-65). -/
inductive SortBy where
  | Cpu
  | Ram
deriving DecidableEq, Repr

/-- Embeds struct ConfigScreen (src/src/main.rs lines 45-53). -/
structure ConfigScreen where
  host : String
  username : String
  password : String
  use_ssh_key : Bool
  ssh_key_path : String
  current_field : ConfigField
  error_message : Option String
deriving DecidableEq, Repr

/-- Embeds struct HistoricalData (src/src/main.rs lines 75-80). -/
structure HistoricalData where
  timestamp : Nat
  cpu_total : F64
  ram_total : F64
deriving DecidableEq, Repr

/-- Embeds struct App (src/src/main.rs lines 82-91).  The LoadingScreen
field is purely cosmetic animation state with no bearing on any claim and
is omitted. -/
structure App where
  state : AppState
  config : ConfigScreen
  users : List UserStats
  history : List HistoricalData
  selected_user : Nat
  sort_by : SortBy
  should_quit : Bool
deriving DecidableEq, Repr

/-- Embeds const MAX_HISTORY (src/src/main.rs line 27). -/
def MAX_HISTORY : Nat := 100

/-- Embeds the history-append step of App::update_data (src/src/main.rs
lines 242-251): push the new point, then drop the oldest entry if the
length exceeds MAX_HISTORY (Vec::remove(0)). -/
def pushHistory (h : List HistoricalData) (pt : HistoricalData) : List HistoricalData :=
  let h2 := h ++ [pt]
  if MAX_HISTORY < h2.length then h2.drop 1 else h2

/-- Embeds App::sort_users (src/src/main.rs lines 254-263): stable sort of
users, descending by the field selected by sort_by; none is the unwrap
panic on a NaN comparison. -/
def App.sort_users? (app : App) : Option App :=
  match app.sort_by with
  | SortBy.Cpu => (sortByDesc? (fun u => u.cpu_percent) app.users).map (fun us => { app with users := us })
  | SortBy.Ram => (sortByDesc? (fun u => u.ram_mb) app.users).map (fun us => { app with users := us })

/-- Embeds App::update_data (src/src/main.rs lines 234-252): replace users
wholesale, sort them, append one aggregate history point (sums over the
sorted list), and trim history to MAX_HISTORY.  now stands for the
Local::now() inside the push. -/
def App.update_data? (app : App) (users : List UserStats) (now : Nat) : Option App :=
  (App.sort_users? { app with users := users }).map (fun a =>
    { a with
        history := pushHistory a.history
          ({ timestamp := now
             cpu_total := F64.sum (a.users.map (fun u => u.cpu_percent))
             ram_total := F64.sum (a.users.map (fun u => u.ram_mb)) }) })

/-- Embeds App::set_sort (src/src/main.rs lines 265-268): store the new
key then re-sort. -/
def App.set_sort? (app : App) (k : SortBy) : Option App :=
  App.sort_users? { app with sort_by := k }

/-- Embeds App::next_user (src/src/main.rs lines 270-274). -/
def App.next_user (app : App) : App :=
  if app.users.isEmpty then app
  else { app with selected_user := (app.selected_user + 1) % app.users.length }

/-- Embeds App::previous_user (src/src/main.rs lines 276-284). -/
def App.previous_user (app : App) : App :=
  if app.users.isEmpty then app
  else if 0 < app.selected_user then { app with selected_user := app.selected_user - 1 }
  else { app with selected_user := app.users.length - 1 }

/-- Embeds ConfigScreen::toggle_ssh_key (src/src/main.rs lines 178-185,
src/src/ui.rs lines 128-135): only acts when the checkbox field is active;
flips use_ssh_key and clears the password when the flip lands in key mode. -/
def ConfigScreen.toggle_ssh_key (c : ConfigScreen) : ConfigScreen :=
  if c.current_field = ConfigField.UseSSHKey then
    let c1 := { c with use_ssh_key := !c.use_ssh_key }
    if c1.use_ssh_key then { c1 with password := ("") } else c1
  else c

/-- Embeds the Esc key handling of run_app (src/src/main.rs lines 752,
842-844, 848-852): quit from Config, cancel from Connecting (back to
Config), exit from Monitoring (back to Config, clearing users and
history). -/
def App.handleEscKey (app : App) : App :=
  match app.state with
  | AppState.Config => { app with should_quit := true }
  | AppState.Connecting => { app with state := AppState.Config }
  | AppState.Monitoring => { app with state := AppState.Config, users := [], history := [] }

/-- Embeds the Ok branch of the initial-fetch thread (src/src/main.rs lines
793-797): merge the batch via update_data and commit Monitoring, clearing
the config error.  Note: this branch does not inspect the current workflow
state before committing. -/
def App.initialFetchOk (app : App) (batch : List UserStats) (now : Nat) : Option App :=
  (App.update_data? app batch now).map (fun a =>
    { a with state := AppState.Monitoring
             config := { a.config with error_message := none } })

/-- Embeds the Err branch of the initial-fetch thread (src/src/main.rs
lines 828-833): back to Config with error_message set; nothing else is
touched. -/
def App.initialFetchErr (app : App) (msg : String) : App :=
  { app with state := AppState.Config
             config := { app.config with error_message := some (("Connection failed: ") ++ msg) } }

/-- Embeds one successful background-poll merge (src/src/main.rs lines
814-821): the state is checked under the lock at merge time; a result
arriving after the workflow left Monitoring is discarded (the loop breaks,
the App is untouched). -/
def App.bgPollOk (app : App) (batch : List UserStats) (now : Nat) : Option App :=
  if app.state = AppState.Monitoring then App.update_data? app batch now else some app

/-- Selects the field compared by the given sort key (cpu_percent for Cpu,
ram_mb for Ram), matching the comparator choices in App::sort_users. -/
def sortKeyOf : SortBy → UserStats → F64
  | SortBy.Cpu, u => u.cpu_percent
  | SortBy.Ram, u => u.ram_mb

/-- Descending (non-ascending) relation on the key values: a may precede b
when the comparison does not say key a is strictly below key b. -/
def descBy {α : Type} (key : α → F64) (a b : α) : Prop :=
  F64.cmp? (key a) (key b) ≠ some Ordering.lt

instance {α : Type} (key : α → F64) : DecidableRel (descBy key) := fun a b => by
  unfold descBy; infer_instance

/-! Comparison lemmas for the idealized f64. -/

theorem F64.cmp?_isSome {a b : F64} (ha : a ≠ F64.nan) (hb : b ≠ F64.nan) :
    (F64.cmp? a b).isSome := by
  cases a <;> cases b <;> simp_all [F64.cmp?]

theorem F64.cmp?_ne_nan_left {a b : F64} {o : Ordering} (h : F64.cmp? a b = some o) :
    a ≠ F64.nan := by
  cases a <;> cases b <;> simp_all [F64.cmp?]

theorem F64.cmp?_ne_nan_right {a b : F64} {o : Ordering} (h : F64.cmp? a b = some o) :
    b ≠ F64.nan := by
  cases a <;> cases b <;> simp_all [F64.cmp?]

theorem F64.cmp?_asymm {a b : F64} (h : F64.cmp? a b = some Ordering.lt) :
    F64.cmp? b a ≠ some Ordering.lt := by
  cases a <;> cases b <;> simp_all [F64.cmp?] <;> linarith

theorem F64.cmp?_lt_ne {a b : F64} (h : F64.cmp? a b = some Ordering.lt) : a ≠ b := by
  intro he
  subst he
  exact F64.cmp?_asymm h h

theorem F64.cmp?_lt_of_le_of_lt {z y x : F64} (hz : z ≠ F64.nan)
    (h1 : F64.cmp? y x = some Ordering.lt) (h2 : F64.cmp? y z ≠ some Ordering.lt) :
    F64.cmp? z x = some Ordering.lt := by
  cases x <;> cases y <;> cases z <;> simp_all [F64.cmp?] <;> linarith

/-! Structural lemmas about the Option-valued stable insertion. -/

theorem insertByDesc?_isSome {α : Type} (key : α → F64) (x : α) :
    ∀ (ys : List α), key x ≠ F64.nan → (∀ y ∈ ys, key y ≠ F64.nan) →
      (insertByDesc? key x ys).isSome := by
  intro ys
  induction ys with
  | nil => intro _ _; simp [insertByDesc?]
  | cons y ys ih =>
    intro hx hys
    have hy : key y ≠ F64.nan := hys y (List.mem_cons_self y ys)
    have hsome := F64.cmp?_isSome hy hx
    rw [insertByDesc?]
    cases hc : F64.cmp? (key y) (key x) with
    | none => rw [hc] at hsome; simp at hsome
    | some o =>
      cases o with
      | lt => simp
      | eq =>
        have := ih hx (fun z hz => hys z (List.mem_cons_of_mem y hz))
        simpa using this
      | gt =>
        have := ih hx (fun z hz => hys z (List.mem_cons_of_mem y hz))
        simpa using this

theorem insertByDesc?_length {α : Type} (key : α → F64) (x : α) :
    ∀ {ys l : List α}, insertByDesc? key x ys = some l → l.length = ys.length + 1 := by
  intro ys
  induction ys with
  | nil => intro l h; simp [insertByDesc?] at h; simp [← h]
  | cons y ys ih =>
    intro l h
    rw [insertByDesc?] at h
    cases hc : F64.cmp? (key y) (key x) with
    | none => rw [hc] at h; simp at h
    | some o =>
      rw [hc] at h
      cases o with
      | lt => simp at h; simp [← h]
      | eq =>
        simp at h
        obtain ⟨t, ht, rfl⟩ := h
        simp [ih ht]
      | gt =>
        simp at h
        obtain ⟨t, ht, rfl⟩ := h
        simp [ih ht]

theorem insertByDesc?_mem {α : Type} (key : α → F64) (x : α) :
    ∀ {ys l : List α}, insertByDesc? key x ys = some l →
      ∀ a, a ∈ l ↔ a = x ∨ a ∈ ys := by
  intro ys
  induction ys with
  | nil => intro l h a; simp [insertByDesc?] at h; simp [← h]
  | cons y ys ih =>
    intro l h a
    rw [insertByDesc?] at h
    cases hc : F64.cmp? (key y) (key x) with
    | none => rw [hc] at h; simp at h
    | some o =>
      rw [hc] at h
      cases o with
      | lt => simp at h; subst h; simp; try tauto
      | eq =>
        simp at h
        obtain ⟨t, ht, rfl⟩ := h
        simp [ih ht a]; tauto
      | gt =>
        simp at h
        obtain ⟨t, ht, rfl⟩ := h
        simp [ih ht a]; tauto

theorem insertByDesc?_pairwise {α : Type} (key : α → F64) (x : α) :
    ∀ {ys l : List α}, List.Pairwise (descBy key) ys →
      insertByDesc? key x ys = some l →
      (∀ y ∈ ys, key y ≠ F64.nan) →
      List.Pairwise (descBy key) l := by
  intro ys
  induction ys with
  | nil => intro l _ h _; simp [insertByDesc?] at h; simp [← h]
  | cons y ys ih =>
    intro l hp h hn
    rw [insertByDesc?] at h
    cases hc : F64.cmp? (key y) (key x) with
    | none => rw [hc] at h; simp at h
    | some o =>
      rw [hc] at h
      rw [List.pairwise_cons] at hp
      cases o with
      | lt =>
        simp at h
        subst h
        rw [List.pairwise_cons]
        constructor
        · intro a ha
          rcases List.mem_cons.mp ha with rfl | ha'
          · exact F64.cmp?_asymm hc
          · have hza : F64.cmp? (key a) (key x) = some Ordering.lt :=
              F64.cmp?_lt_of_le_of_lt (hn a (List.mem_cons_of_mem y ha')) hc (hp.1 a ha')
            exact F64.cmp?_asymm hza
        · exact List.pairwise_cons.mpr hp
      | eq =>
        simp at h
        obtain ⟨t, ht, rfl⟩ := h
        rw [List.pairwise_cons]
        refine ⟨?_, ih hp.2 ht (fun z hz => hn z (List.mem_cons_of_mem y hz))⟩
        intro a ha
        rcases (insertByDesc?_mem key x ht a).mp ha with rfl | ha'
        · simp [descBy, hc]
        · exact hp.1 a ha'
      | gt =>
        simp at h
        obtain ⟨t, ht, rfl⟩ := h
        rw [List.pairwise_cons]
        refine ⟨?_, ih hp.2 ht (fun z hz => hn z (List.mem_cons_of_mem y hz))⟩
        intro a ha
        rcases (insertByDesc?_mem key x ht a).mp ha with rfl | ha'
        · simp [descBy, hc]
        · exact hp.1 a ha'

theorem insertByDesc?_filter {α : Type} (key : α → F64) (x : α) :
    ∀ {ys l : List α}, List.Pairwise (descBy key) ys →
      insertByDesc? key x ys = some l →
      (∀ y ∈ ys, key y ≠ F64.nan) →
      ∀ c : F64, l.filter (fun a => decide (key a = c))
        = ys.filter (fun a => decide (key a = c)) ++ (if key x = c then [x] else []) := by
  intro ys
  induction ys with
  | nil =>
    intro l _ h _ c
    simp [insertByDesc?] at h
    subst h
    by_cases hxc : key x = c <;> simp [hxc]
  | cons y ys ih =>
    intro l hp h hn c
    rw [insertByDesc?] at h
    cases hc : F64.cmp? (key y) (key x) with
    | none => rw [hc] at h; simp at h
    | some o =>
      rw [hc] at h
      rw [List.pairwise_cons] at hp
      cases o with
      | lt =>
        simp at h
        subst h
        have hlt : ∀ z ∈ y :: ys, F64.cmp? (key z) (key x) = some Ordering.lt := by
          intro z hz
          rcases List.mem_cons.mp hz with rfl | hz'
          · exact hc
          · exact F64.cmp?_lt_of_le_of_lt (hn z (List.mem_cons_of_mem y hz')) hc (hp.1 z hz')
        by_cases hxc : key x = c
        · have hnone : List.filter (fun a => decide (key a = c)) (y :: ys) = [] := by
            rw [List.filter_eq_nil_iff]
            intro a ha
            have hne : key a ≠ c := hxc ▸ (F64.cmp?_lt_ne (hlt a ha))
            simp [hne]
          rw [List.filter_cons, hnone]
          simp [hxc]
        · rw [List.filter_cons]
          simp [hxc]
      | eq =>
        simp at h
        obtain ⟨t, ht, rfl⟩ := h
        have := ih hp.2 ht (fun z hz => hn z (List.mem_cons_of_mem y hz)) c
        rw [List.filter_cons, List.filter_cons]
        by_cases hyc : decide (key y = c) = true <;> simp [hyc, this]
      | gt =>
        simp at h
        obtain ⟨t, ht, rfl⟩ := h
        have := ih hp.2 ht (fun z hz => hn z (List.mem_cons_of_mem y hz)) c
        rw [List.filter_cons, List.filter_cons]
        by_cases hyc : decide (key y = c) = true <;> simp [hyc, this]

theorem insertByDesc?_append {α : Type} (key : α → F64) (x : α) :
    ∀ {ys : List α}, (∀ y ∈ ys, key y ≠ F64.nan) → key x ≠ F64.nan →
      (∀ y ∈ ys, F64.cmp? (key y) (key x) ≠ some Ordering.lt) →
      insertByDesc? key x ys = some (ys ++ [x]) := by
  intro ys
  induction ys with
  | nil => intro _ _ _; simp [insertByDesc?]
  | cons y ys ih =>
    intro hn hx hge
    rw [insertByDesc?]
    have hy : key y ≠ F64.nan := hn y (List.mem_cons_self y ys)
    have hsome := F64.cmp?_isSome hy hx
    cases hc : F64.cmp? (key y) (key x) with
    | none => rw [hc] at hsome; simp at hsome
    | some o =>
      cases o with
      | lt => exact absurd hc (hge y (List.mem_cons_self y ys))
      | eq =>
        rw [ih (fun z hz => hn z (List.mem_cons_of_mem y hz)) hx
          (fun z hz => hge z (List.mem_cons_of_mem y hz))]
        simp
      | gt =>
        rw [ih (fun z hz => hn z (List.mem_cons_of_mem y hz)) hx
          (fun z hz => hge z (List.mem_cons_of_mem y hz))]
        simp

theorem sortByDesc?_go {α : Type} (key : α → F64) :
    ∀ (l acc : List α), List.Pairwise (descBy key) acc →
      (∀ a ∈ acc, key a ≠ F64.nan) → (∀ a ∈ l, key a ≠ F64.nan) →
      ∃ l', List.foldlM (fun acc x => insertByDesc? key x acc) acc l = some l' ∧
        List.Pairwise (descBy key) l' ∧
        (∀ c : F64, l'.filter (fun a => decide (key a = c))
          = acc.filter (fun a => decide (key a = c)) ++ l.filter (fun a => decide (key a = c))) ∧
        (∀ a ∈ l', a ∈ acc ∨ a ∈ l) := by
  intro l
  induction l with
  | nil =>
    intro acc hp hn _
    exact ⟨acc, by simp, hp, by simp, fun a ha => Or.inl ha⟩
  | cons x l ih =>
    intro acc hp hn hl
    have hx : key x ≠ F64.nan := hl x (List.mem_cons_self x l)
    have hsome := insertByDesc?_isSome key x acc hx hn
    cases hm : insertByDesc? key x acc with
    | none => rw [hm] at hsome; simp at hsome
    | some m =>
      have hmp : List.Pairwise (descBy key) m := insertByDesc?_pairwise key x hp hm hn
      have hmn : ∀ a ∈ m, key a ≠ F64.nan := by
        intro a ha
        rcases (insertByDesc?_mem key x hm a).mp ha with rfl | h
        · exact hx
        · exact hn a h
      obtain ⟨l', hfold, hp', hfilt, hmem⟩ :=
        ih m hmp hmn (fun a ha => hl a (List.mem_cons_of_mem x ha))
      refine ⟨l', ?_, hp', ?_, ?_⟩
      · rw [List.foldlM_cons, hm]
        simpa using hfold
      · intro c
        rw [hfilt c, insertByDesc?_filter key x hp hm hn c, List.filter_cons]
        by_cases hxc : key x = c <;> simp [hxc]
      · intro a ha
        rcases hmem a ha with h | h
        · rcases (insertByDesc?_mem key x hm a).mp h with h1 | h2
          · exact Or.inr (by simp [h1])
          · exact Or.inl h2
        · exact Or.inr (List.mem_cons_of_mem x h)

theorem sortByDesc?_spec {α : Type} (key : α → F64) (l : List α)
    (hn : ∀ a ∈ l, key a ≠ F64.nan) :
    ∃ l', sortByDesc? key l = some l' ∧
      List.Pairwise (descBy key) l' ∧
      (∀ c : F64, l'.filter (fun a => decide (key a = c))
        = l.filter (fun a => decide (key a = c))) ∧
      (∀ a ∈ l', a ∈ l) := by
  obtain ⟨l', hfold, hp', hfilt, hmem⟩ :=
    sortByDesc?_go key l [] (List.Pairwise.nil) (by simp) hn
  refine ⟨l', hfold, hp', ?_, ?_⟩
  · intro c
    simpa using hfilt c
  · intro a ha
    rcases hmem a ha with h | h
    · simp at h
    · exact h

theorem foldl_insert_length {α : Type} (key : α → F64) :
    ∀ (l acc l' : List α),
      List.foldlM (fun acc x => insertByDesc? key x acc) acc l = some l' →
      l'.length = acc.length + l.length := by
  intro l
  induction l with
  | nil => intro acc l' h; simp at h; simp [← h]
  | cons x l ih =>
    intro acc l' h
    rw [List.foldlM_cons] at h
    cases hm : insertByDesc? key x acc with
    | none => rw [hm] at h; simp at h
    | some m =>
      rw [hm] at h
      simp at h
      have := ih m l' h
      rw [this, insertByDesc?_length key x hm]
      simp [List.length_cons]
      omega

theorem sortByDesc?_length {α : Type} (key : α → F64) {l l' : List α}
    (h : sortByDesc? key l = some l') : l'.length = l.length := by
  have := foldl_insert_length key l [] l' h
  simpa using this

theorem sortByDesc?_fixpoint_go {α : Type} (key : α → F64) :
    ∀ (l acc : List α), List.Pairwise (descBy key) (acc ++ l) →
      (∀ a ∈ acc ++ l, key a ≠ F64.nan) →
      List.foldlM (fun acc x => insertByDesc? key x acc) acc l = some (acc ++ l) := by
  intro l
  induction l with
  | nil => intro acc _ _; simp
  | cons x l ih =>
    intro acc hp hn
    have hins : insertByDesc? key x acc = some (acc ++ [x]) := by
      apply insertByDesc?_append key x
      · intro y hy; exact hn y (List.mem_append_left _ hy)
      · exact hn x (List.mem_append_right _ (List.mem_cons_self x l))
      · intro y hy
        have := (List.pairwise_append.mp hp).2.2 y hy x (List.mem_cons_self x l)
        simpa [descBy] using this
    rw [List.foldlM_cons, hins]
    have hassoc : (acc ++ [x]) ++ l = acc ++ x :: l := by simp
    have := ih (acc ++ [x]) (by rw [hassoc]; exact hp) (by rw [hassoc]; exact hn)
    simpa [hassoc] using this

theorem sortByDesc?_of_sorted {α : Type} (key : α → F64) {l : List α}
    (hp : List.Pairwise (descBy key) l) (hn : ∀ a ∈ l, key a ≠ F64.nan) :
    sortByDesc? key l = some l := by
  have := sortByDesc?_fixpoint_go key l [] (by simpa using hp) (by simpa using hn)
  simpa using this

/-! History-buffer lemmas (App::update_data's bounded push). -/

theorem pushHistory_eq (h : List HistoricalData) (pt : HistoricalData) :
    pushHistory h pt
      = if MAX_HISTORY < h.length + 1 then (h ++ [pt]).drop 1 else h ++ [pt] := by
  simp only [pushHistory, List.length_append, List.length_singleton]

theorem foldl_pushHistory_eq_drop (ps : List HistoricalData) :
    ps.foldl pushHistory [] = ps.drop (ps.length - MAX_HISTORY) := by
  induction ps using List.reverseRecOn with
  | nil => simp
  | append_singleton l a ih =>
    rw [List.foldl_append, List.foldl_cons, List.foldl_nil, ih, pushHistory_eq]
    have hdl : (l.drop (l.length - MAX_HISTORY)).length
        = l.length - (l.length - MAX_HISTORY) := List.length_drop _ _
    have hM : 0 < MAX_HISTORY := by norm_num [MAX_HISTORY]
    by_cases hn : l.length < MAX_HISTORY
    · have hc : ¬ MAX_HISTORY < (l.drop (l.length - MAX_HISTORY)).length + 1 := by omega
      rw [if_neg hc]
      have h1 : l.length - MAX_HISTORY = 0 := by omega
      have h2 : (l ++ [a]).length - MAX_HISTORY = 0 := by
        rw [List.length_append]; simp; omega
      rw [h1, h2, List.drop_zero, List.drop_zero]
    · have hc : MAX_HISTORY < (l.drop (l.length - MAX_HISTORY)).length + 1 := by omega
      rw [if_pos hc]
      have hle : 1 ≤ (l.drop (l.length - MAX_HISTORY)).length := by omega
      rw [List.drop_append_of_le_length hle, List.drop_drop]
      have harith : l.length - MAX_HISTORY + 1 = (l ++ [a]).length - MAX_HISTORY := by
        rw [List.length_append]; simp; omega
      rw [harith, List.drop_append_of_le_length (by rw [List.length_append]; simp; omega)]

theorem foldl_pushHistory_length (ps : List HistoricalData) :
    (ps.foldl pushHistory []).length = min ps.length MAX_HISTORY := by
  rw [foldl_pushHistory_eq_drop, List.length_drop]
  omega

theorem foldl_pushHistory_getLast? (ps : List HistoricalData) :
    (ps.foldl pushHistory []).getLast? = ps.getLast? := by
  rw [foldl_pushHistory_eq_drop, List.getLast?_drop]
  split_ifs with h
  · have : ps.length = 0 := by simp [MAX_HISTORY] at h; omega
    rw [List.length_eq_zero] at this
    simp [this]
  · rfl

theorem foldl_pushHistory_head? (ps : List HistoricalData) :
    (ps.foldl pushHistory []).head? = ps[ps.length - MAX_HISTORY]? := by
  rw [foldl_pushHistory_eq_drop, List.head?_drop]

/-! Parsing lemmas: the fetch's per-line foldl vs its per-line contract. -/

theorem parseUserStats_go (now : Nat) :
    ∀ (lines : List String) (acc : List UserStats),
      lines.foldl (fun users line =>
        match splitWhitespaceRs line with
        | u :: c :: r :: _ =>
          users ++ [{ username := u
                      cpu_percent := (parseF64 c).getD (F64.num 0)
                      ram_mb := (parseF64 r).getD (F64.num 0)
                      last_updated := now }]
        | _ => users) acc
      = acc ++ lines.filterMap (parseStatsLine now) := by
  intro lines
  induction lines with
  | nil => intro acc; simp
  | cons l lines ih =>
    intro acc
    rw [List.foldl_cons, List.filterMap_cons]
    cases hs : splitWhitespaceRs l with
    | nil => simp [parseStatsLine, hs, ih]
    | cons u rest =>
      cases rest with
      | nil => simp [parseStatsLine, hs, ih]
      | cons c rest2 =>
        cases rest2 with
        | nil => simp [parseStatsLine, hs, ih]
        | cons r rest3 => simp [parseStatsLine, hs, ih]

theorem parseUserStats_eq_filterMap (output : String) (now : Nat) :
    parseUserStats output now = (rustLines output).filterMap (parseStatsLine now) := by
  rw [parseUserStats, parseUserStats_go now]
  simp

theorem filterMap_parse_usernames (now : Nat) :
    ∀ lines : List String,
      (lines.filterMap (parseStatsLine now)).map (fun u => u.username)
        = (lines.filter (fun l => decide (3 ≤ (splitWhitespaceRs l).length))).map
            (fun l => (splitWhitespaceRs l).headD ("")) := by
  intro lines
  induction lines with
  | nil => simp
  | cons l lines ih =>
    rw [List.filterMap_cons, List.filter_cons]
    cases hs : splitWhitespaceRs l with
    | nil => simp [parseStatsLine, hs, ih]
    | cons u rest =>
      cases rest with
      | nil => simp [parseStatsLine, hs, ih]
      | cons c rest2 =>
        cases rest2 with
        | nil => simp [parseStatsLine, hs, ih]
        | cons r rest3 => simp [parseStatsLine, hs, ih]

theorem filterMap_parse_timestamp (now : Nat) (lines : List String) :
    ∀ u ∈ lines.filterMap (parseStatsLine now), u.last_updated = now := by
  intro u hu
  rw [List.mem_filterMap] at hu
  obtain ⟨l, _, hl⟩ := hu
  rw [parseStatsLine] at hl
  cases hs : splitWhitespaceRs l with
  | nil => rw [hs] at hl; simp at hl
  | cons a rest =>
    cases rest with
    | nil => rw [hs] at hl; simp at hl
    | cons c rest2 =>
      cases rest2 with
      | nil => rw [hs] at hl; simp at hl
      | cons r rest3 =>
        rw [hs] at hl
        simp at hl
        rw [← hl]

/-! App-level characterizations. -/

theorem sort_users?_eq (app : App) :
    App.sort_users? app
      = (sortByDesc? (sortKeyOf app.sort_by) app.users).map (fun us => { app with users := us }) := by
  cases hsb : app.sort_by <;> simp [App.sort_users?, hsb, sortKeyOf] <;> rfl

theorem update_data?_eq (app : App) (users : List UserStats) (now : Nat) :
    App.update_data? app users now
      = (sortByDesc? (sortKeyOf app.sort_by) users).map (fun us =>
          { app with users := us
                     history := pushHistory app.history
                       ({ timestamp := now
                          cpu_total := F64.sum (us.map (fun u => u.cpu_percent))
                          ram_total := F64.sum (us.map (fun u => u.ram_mb)) }) }) := by
  rw [App.update_data?, sort_users?_eq]
  cases h : sortByDesc? (sortKeyOf app.sort_by) users <;> simp [h]

/-! Selection-movement lemmas. -/

theorem length_pos_isEmpty_false {α : Type} {l : List α} (h : 0 < l.length) :
    l.isEmpty = false := by
  cases l with
  | nil => simp at h
  | cons a t => rfl

theorem next_user_iterate (app : App) (h : app.selected_user < app.users.length) :
    ∀ j : Nat, App.next_user^[j] app
      = { app with selected_user := (app.selected_user + j) % app.users.length } := by
  have hL : 0 < app.users.length := Nat.lt_of_le_of_lt (Nat.zero_le _) h
  intro j
  induction j with
  | zero =>
    simp only [Function.iterate_zero, id_eq, Nat.add_zero, Nat.mod_eq_of_lt h]
  | succ j ih =>
    rw [Function.iterate_succ_apply', ih, App.next_user]
    simp only [length_pos_isEmpty_false hL, Bool.false_eq_true, if_false]
    congr 1
    rw [Nat.mod_add_mod, Nat.add_assoc]

theorem previous_user_eq (app : App) (h : app.selected_user < app.users.length) :
    App.previous_user app
      = { app with selected_user :=
            (app.selected_user + (app.users.length - 1)) % app.users.length } := by
  have hL : 0 < app.users.length := Nat.lt_of_le_of_lt (Nat.zero_le _) h
  rw [App.previous_user]
  simp only [length_pos_isEmpty_false hL, Bool.false_eq_true, if_false]
  by_cases h0 : 0 < app.selected_user
  · rw [if_pos h0]
    congr 1
    have harith : app.selected_user + (app.users.length - 1)
        = (app.selected_user - 1) + app.users.length := by omega
    rw [harith, Nat.add_mod_right, Nat.mod_eq_of_lt (by omega)]
  · rw [if_neg h0]
    congr 1
    have h0' : app.selected_user = 0 := by omega
    rw [h0', Nat.zero_add, Nat.mod_eq_of_lt (by omega)]

theorem previous_user_iterate (app : App) (h : app.selected_user < app.users.length) :
    ∀ j : Nat, App.previous_user^[j] app
      = { app with selected_user :=
            (app.selected_user + j * (app.users.length - 1)) % app.users.length } := by
  have hL : 0 < app.users.length := Nat.lt_of_le_of_lt (Nat.zero_le _) h
  intro j
  induction j with
  | zero =>
    simp only [Function.iterate_zero, id_eq, Nat.zero_mul, Nat.add_zero, Nat.mod_eq_of_lt h]
  | succ j ih =>
    rw [Function.iterate_succ_apply', ih,
      previous_user_eq _ (Nat.mod_lt _ hL)]
    congr 1
    rw [Nat.mod_add_mod, Nat.succ_mul]
    ring_nf

/-! Claim theorems. -/

/-- C2: for every sequence of N pushes into the history buffer (one push per
successful poll via update_data) with capacity MAX_HISTORY = 100, the buffer
afterwards holds exactly min(N, 100) points, its last element is the most
recently pushed point, its first element is the max(0, N-100)-th pushed
point (FIFO eviction), and each successful update_data performs exactly one
such push on the previous history. -/
theorem claim_C2 (ps : List HistoricalData) :
    (ps.foldl pushHistory []).length = min ps.length MAX_HISTORY ∧
    (ps.foldl pushHistory []).getLast? = ps.getLast? ∧
    (ps.foldl pushHistory []).head? = ps[ps.length - MAX_HISTORY]? ∧
    (∀ (app : App) (batch : List UserStats) (now : Nat) (app' : App),
      App.update_data? app batch now = some app' →
        app'.history = pushHistory app.history
          ({ timestamp := now
             cpu_total := F64.sum (app'.users.map (fun u => u.cpu_percent))
             ram_total := F64.sum (app'.users.map (fun u => u.ram_mb)) })) := by
  refine ⟨foldl_pushHistory_length ps, foldl_pushHistory_getLast? ps,
    foldl_pushHistory_head? ps, ?_⟩
  intro app batch now app' h
  rw [update_data?_eq] at h
  cases hs : sortByDesc? (sortKeyOf app.sort_by) batch with
  | none => rw [hs] at h; simp at h
  | some us =>
    rw [hs] at h
    simp at h
    rw [← h]

/-- Witness for C2 at a concrete state: one successful update_data appends
exactly one aggregate point to the previous history. -/
theorem claim_C2_witness :
    ({ state := AppState.Monitoring
       config := ⟨("h"), ("u"), ("p"), false, ("k"), ConfigField.Host, none⟩
       users := []
       history := [⟨3, F64.num 0, F64.num 0⟩]
       selected_user := 0
       sort_by := SortBy.Cpu
       should_quit := false } : App).history
      = pushHistory
          ({ state := AppState.Monitoring
             config := ⟨("h"), ("u"), ("p"), false, ("k"), ConfigField.Host, none⟩
             users := []
             history := []
             selected_user := 0
             sort_by := SortBy.Cpu
             should_quit := false } : App).history
          ({ timestamp := 3
             cpu_total := F64.sum (([] : List UserStats).map (fun u => u.cpu_percent))
             ram_total := F64.sum (([] : List UserStats).map (fun u => u.ram_mb)) }) :=
  (claim_C2 []).2.2.2
    ({ state := AppState.Monitoring
       config := ⟨("h"), ("u"), ("p"), false, ("k"), ConfigField.Host, none⟩
       users := []
       history := []
       selected_user := 0
       sort_by := SortBy.Cpu
       should_quit := false } : App)
    [] 3
    ({ state := AppState.Monitoring
       config := ⟨("h"), ("u"), ("p"), false, ("k"), ConfigField.Host, none⟩
       users := []
       history := [⟨3, F64.num 0, F64.num 0⟩]
       selected_user := 0
       sort_by := SortBy.Cpu
       should_quit := false } : App)
    (by decide)

/-- C5: for every raw remote-command output string, the fetch's parsing
yields exactly one UserSample per line having at least 3 whitespace
separated tokens (username = first token, numeric fields = parsed second
and third token defaulting to 0.0), lines with fewer than 3 tokens are
discarded without failing the batch, and all samples of one batch carry the
one common timestamp. -/
theorem claim_C5 (output : String) (now : Nat) :
    parseUserStats output now = (rustLines output).filterMap (parseStatsLine now) ∧
    (parseUserStats output now).length
      = ((rustLines output).filter (fun l => decide (3 ≤ (splitWhitespaceRs l).length))).length ∧
    (parseUserStats output now).map (fun u => u.username)
      = ((rustLines output).filter (fun l => decide (3 ≤ (splitWhitespaceRs l).length))).map
          (fun l => (splitWhitespaceRs l).headD ("")) ∧
    (parseUserStats output now).map (fun u => u.last_updated)
      = List.replicate (parseUserStats output now).length now := by
  have h1 := parseUserStats_eq_filterMap output now
  have h2 := filterMap_parse_usernames now (rustLines output)
  refine ⟨h1, ?_, ?_, ?_⟩
  · rw [h1]
    have := congrArg List.length h2
    simpa using this
  · rw [h1]
    exact h2
  · rw [List.eq_replicate_iff]
    refine ⟨by simp, ?_⟩
    intro b hb
    rw [List.mem_map] at hb
    obtain ⟨u, hu, hub⟩ := hb
    rw [h1] at hu
    rw [← hub]
    exact filterMap_parse_timestamp now _ u hu

/-- C6: sort_users keeps the user list sorted descending by the active sort
key with ties left in original order (stable sort), and sorting is
idempotent: re-sorting the sorted result, or any list already sorted by the
same key, returns it unchanged.  Stated for batches whose active-key values
are not NaN (the only case in which the source's unwrap-based comparator
returns at all on two or more users; C3 treats the NaN case). -/
theorem claim_C6 (app : App)
    (hn : ∀ u ∈ app.users, sortKeyOf app.sort_by u ≠ F64.nan) :
    (∃ app', App.sort_users? app = some app' ∧
      app'.users.Pairwise (descBy (sortKeyOf app.sort_by)) ∧
      (∀ c : F64, app'.users.filter (fun u => decide (sortKeyOf app.sort_by u = c))
        = app.users.filter (fun u => decide (sortKeyOf app.sort_by u = c))) ∧
      App.sort_users? app' = some app') ∧
    (app.users.Pairwise (descBy (sortKeyOf app.sort_by)) → App.sort_users? app = some app) := by
  constructor
  · obtain ⟨us, hsort, hp, hfilt, hmem⟩ := sortByDesc?_spec (sortKeyOf app.sort_by) app.users hn
    refine ⟨{ app with users := us }, ?_, by simpa using hp, ?_, ?_⟩
    · rw [sort_users?_eq, hsort]
      rfl
    · intro c
      simpa using hfilt c
    · rw [sort_users?_eq]
      have hn' : ∀ a ∈ us, sortKeyOf app.sort_by a ≠ F64.nan := fun a ha => hn a (hmem a ha)
      have hfix := sortByDesc?_of_sorted (sortKeyOf app.sort_by) hp hn'
      rw [hfix]
      rfl
  · intro hp
    rw [sort_users?_eq, sortByDesc?_of_sorted (sortKeyOf app.sort_by) hp hn]
    rfl

/-- Witness for C6 at a concrete two-user state: the sort succeeds, its
output is sorted descending by cpu, and re-sorting it is the identity. -/
theorem claim_C6_witness :
    (App.sort_users?
        ({ state := AppState.Monitoring
           config := ⟨("h"), ("u"), ("p"), false, ("k"), ConfigField.Host, none⟩
           users := [⟨("a"), F64.num 1, F64.num 2, 0⟩, ⟨("b"), F64.num 3, F64.num 1, 0⟩]
           history := []
           selected_user := 0
           sort_by := SortBy.Cpu
           should_quit := false } : App)).isSome
      ∧ (App.sort_users?
          ({ state := AppState.Monitoring
             config := ⟨("h"), ("u"), ("p"), false, ("k"), ConfigField.Host, none⟩
             users := [⟨("a"), F64.num 1, F64.num 2, 0⟩, ⟨("b"), F64.num 3, F64.num 1, 0⟩]
             history := []
             selected_user := 0
             sort_by := SortBy.Cpu
             should_quit := false } : App)).elim True
          (fun a => a.users.Pairwise (descBy (sortKeyOf SortBy.Cpu))
            ∧ App.sort_users? a = some a) := by
  obtain ⟨⟨app', h1, h2, h3, h4⟩, h5⟩ := claim_C6
    ({ state := AppState.Monitoring
       config := ⟨("h"), ("u"), ("p"), false, ("k"), ConfigField.Host, none⟩
       users := [⟨("a"), F64.num 1, F64.num 2, 0⟩, ⟨("b"), F64.num 3, F64.num 1, 0⟩]
       history := []
       selected_user := 0
       sort_by := SortBy.Cpu
       should_quit := false } : App)
    (by decide)
  rw [h1]
  exact ⟨rfl, h2, h4⟩

/-- C7: for every user list of length L and every valid starting selection
index, L consecutive next-user moves return the selection to its start, and
likewise L consecutive previous-user moves; incrementing past the last
index yields 0 and decrementing below 0 yields the last index; on an empty
list both moves are no-ops. -/
theorem claim_C7 (app : App) :
    (app.selected_user < app.users.length →
      App.next_user^[app.users.length] app = app ∧
      App.previous_user^[app.users.length] app = app ∧
      (app.selected_user = app.users.length - 1 →
        (App.next_user app).selected_user = 0) ∧
      (app.selected_user = 0 →
        (App.previous_user app).selected_user = app.users.length - 1)) ∧
    (app.users = [] →
      App.next_user app = app ∧ App.previous_user app = app) := by
  constructor
  · intro h
    have hp : 0 < app.users.length := Nat.lt_of_le_of_lt (Nat.zero_le _) h
    refine ⟨?_, ?_, ?_, ?_⟩
    · rw [next_user_iterate app h app.users.length]
      have hmod : (app.selected_user + app.users.length) % app.users.length
          = app.selected_user := by
        rw [Nat.add_mod_right, Nat.mod_eq_of_lt h]
      rw [hmod]
    · rw [previous_user_iterate app h app.users.length]
      have hmod : (app.selected_user + app.users.length * (app.users.length - 1))
          % app.users.length = app.selected_user := by
        rw [Nat.mul_comm, Nat.add_mul_mod_self_right, Nat.mod_eq_of_lt h]
      rw [hmod]
    · intro hlast
      rw [App.next_user, length_pos_isEmpty_false hp]
      simp only [Bool.false_eq_true, if_false]
      rw [hlast, Nat.sub_add_cancel hp, Nat.mod_self]
    · intro hzero
      rw [App.previous_user, length_pos_isEmpty_false hp]
      simp only [Bool.false_eq_true, if_false]
      rw [hzero]
      simp
  · intro h
    constructor
    · rw [App.next_user]
      simp [h]
    · rw [App.previous_user]
      simp [h]

/-- Witness for C7: on a concrete two-user state selected at the last
index, two next moves return to the start and one next move wraps to 0; on
the same state selected at 0, one previous move wraps to the last index;
and on an empty state the previous move is a no-op. -/
theorem claim_C7_witness :
    (App.next_user^[2]
        ({ state := AppState.Monitoring
           config := ⟨("h"), ("u"), ("p"), false, ("k"), ConfigField.Host, none⟩
           users := [⟨("a"), F64.num 1, F64.num 2, 0⟩, ⟨("b"), F64.num 3, F64.num 1, 0⟩]
           history := []
           selected_user := 1
           sort_by := SortBy.Cpu
           should_quit := false } : App)
      = ({ state := AppState.Monitoring
           config := ⟨("h"), ("u"), ("p"), false, ("k"), ConfigField.Host, none⟩
           users := [⟨("a"), F64.num 1, F64.num 2, 0⟩, ⟨("b"), F64.num 3, F64.num 1, 0⟩]
           history := []
           selected_user := 1
           sort_by := SortBy.Cpu
           should_quit := false } : App))
    ∧ ((App.next_user
        ({ state := AppState.Monitoring
           config := ⟨("h"), ("u"), ("p"), false, ("k"), ConfigField.Host, none⟩
           users := [⟨("a"), F64.num 1, F64.num 2, 0⟩, ⟨("b"), F64.num 3, F64.num 1, 0⟩]
           history := []
           selected_user := 1
           sort_by := SortBy.Cpu
           should_quit := false } : App)).selected_user = 0)
    ∧ ((App.previous_user
        ({ state := AppState.Monitoring
           config := ⟨("h"), ("u"), ("p"), false, ("k"), ConfigField.Host, none⟩
           users := [⟨("a"), F64.num 1, F64.num 2, 0⟩, ⟨("b"), F64.num 3, F64.num 1, 0⟩]
           history := []
           selected_user := 0
           sort_by := SortBy.Cpu
           should_quit := false } : App)).selected_user = 1)
    ∧ (App.previous_user
        ({ state := AppState.Config
           config := ⟨("h"), ("u"), ("p"), false, ("k"), ConfigField.Host, none⟩
           users := []
           history := []
           selected_user := 7
           sort_by := SortBy.Cpu
           should_quit := false } : App)
      = ({ state := AppState.Config
           config := ⟨("h"), ("u"), ("p"), false, ("k"), ConfigField.Host, none⟩
           users := []
           history := []
           selected_user := 7
           sort_by := SortBy.Cpu
           should_quit := false } : App)) := by
  refine ⟨?_, ?_, ?_, ?_⟩
  · exact ((claim_C7
      ({ state := AppState.Monitoring
         config := ⟨("h"), ("u"), ("p"), false, ("k"), ConfigField.Host, none⟩
         users := [⟨("a"), F64.num 1, F64.num 2, 0⟩, ⟨("b"), F64.num 3, F64.num 1, 0⟩]
         history := []
         selected_user := 1
         sort_by := SortBy.Cpu
         should_quit := false } : App)).1 (by decide)).1
  · exact ((claim_C7
      ({ state := AppState.Monitoring
         config := ⟨("h"), ("u"), ("p"), false, ("k"), ConfigField.Host, none⟩
         users := [⟨("a"), F64.num 1, F64.num 2, 0⟩, ⟨("b"), F64.num 3, F64.num 1, 0⟩]
         history := []
         selected_user := 1
         sort_by := SortBy.Cpu
         should_quit := false } : App)).1 (by decide)).2.2.1 (by decide)
  · exact ((claim_C7
      ({ state := AppState.Monitoring
         config := ⟨("h"), ("u"), ("p"), false, ("k"), ConfigField.Host, none⟩
         users := [⟨("a"), F64.num 1, F64.num 2, 0⟩, ⟨("b"), F64.num 3, F64.num 1, 0⟩]
         history := []
         selected_user := 0
         sort_by := SortBy.Cpu
         should_quit := false } : App)).1 (by decide)).2.2.2 rfl
  · exact ((claim_C7
      ({ state := AppState.Config
         config := ⟨("h"), ("u"), ("p"), false, ("k"), ConfigField.Host, none⟩
         users := []
         history := []
         selected_user := 7
         sort_by := SortBy.Cpu
         should_quit := false } : App)).2 rfl).2

/-- C8: whenever the initial fetch fails, the workflow returns to Config
(EnteringCredentials), the error message is set to the failure cause, every
credential field (host, username, password, auth mode, key path, active
field) is preserved unchanged, and users and history are untouched — in
particular they remain empty when they were empty (no partial state is
published on failure). -/
theorem claim_C8 (app : App) (msg : String) :
    (App.initialFetchErr app msg).state = AppState.Config ∧
    (App.initialFetchErr app msg).config.error_message
      = some (("Connection failed: ") ++ msg) ∧
    (App.initialFetchErr app msg).config.host = app.config.host ∧
    (App.initialFetchErr app msg).config.username = app.config.username ∧
    (App.initialFetchErr app msg).config.password = app.config.password ∧
    (App.initialFetchErr app msg).config.use_ssh_key = app.config.use_ssh_key ∧
    (App.initialFetchErr app msg).config.ssh_key_path = app.config.ssh_key_path ∧
    (App.initialFetchErr app msg).config.current_field = app.config.current_field ∧
    (App.initialFetchErr app msg).users = app.users ∧
    (App.initialFetchErr app msg).history = app.history ∧
    (app.users = [] → (App.initialFetchErr app msg).users = []) ∧
    (app.history = [] → (App.initialFetchErr app msg).history = []) :=
  ⟨rfl, rfl, rfl, rfl, rfl, rfl, rfl, rfl, rfl, rfl, fun h => h, fun h => h⟩

/-- Witness for C8 at a concrete failed connect from a fresh state: back to
Config, error set, password preserved, users still empty. -/
theorem claim_C8_witness :
    (App.initialFetchErr
        ({ state := AppState.Connecting
           config := ⟨("host1"), ("user1"), ("pw"), false, ("k"), ConfigField.Host, none⟩
           users := []
           history := []
           selected_user := 0
           sort_by := SortBy.Cpu
           should_quit := false } : App) ("auth failed")).state = AppState.Config
    ∧ (App.initialFetchErr
        ({ state := AppState.Connecting
           config := ⟨("host1"), ("user1"), ("pw"), false, ("k"), ConfigField.Host, none⟩
           users := []
           history := []
           selected_user := 0
           sort_by := SortBy.Cpu
           should_quit := false } : App) ("auth failed")).users = []
    ∧ (App.initialFetchErr
        ({ state := AppState.Connecting
           config := ⟨("host1"), ("user1"), ("pw"), false, ("k"), ConfigField.Host, none⟩
           users := []
           history := []
           selected_user := 0
           sort_by := SortBy.Cpu
           should_quit := false } : App) ("auth failed")).config.password = ("pw") := by
  obtain ⟨h1, h2, h3, h4, h5, h6, h7, h8, h9, h10, h11, h12⟩ := claim_C8
    ({ state := AppState.Connecting
       config := ⟨("host1"), ("user1"), ("pw"), false, ("k"), ConfigField.Host, none⟩
       users := []
       history := []
       selected_user := 0
       sort_by := SortBy.Cpu
       should_quit := false } : App) ("auth failed")
  exact ⟨h1, h11 rfl, h5⟩

/-- C10: toggling the authentication mode while the checkbox field is the
active field flips use_ssh_key; when the flip lands in key-file mode the
stored secret is cleared to the empty string while host, username and
key-path are unchanged, and toggling back to secret mode does not restore
the cleared secret. -/
theorem claim_C10 (c : ConfigScreen) (h : c.current_field = ConfigField.UseSSHKey) :
    (c.toggle_ssh_key).use_ssh_key = !c.use_ssh_key ∧
    (c.toggle_ssh_key).host = c.host ∧
    (c.toggle_ssh_key).username = c.username ∧
    (c.toggle_ssh_key).ssh_key_path = c.ssh_key_path ∧
    (c.toggle_ssh_key).current_field = c.current_field ∧
    (c.use_ssh_key = false → (c.toggle_ssh_key).password = ("")) ∧
    (c.use_ssh_key = true → (c.toggle_ssh_key).password = c.password) ∧
    (c.use_ssh_key = false → ((c.toggle_ssh_key).toggle_ssh_key).password = ("")) := by
  cases hb : c.use_ssh_key <;>
    simp [ConfigScreen.toggle_ssh_key, h, hb]

/-- Witness for C10 at a concrete config in secret mode: the first toggle
lands in key mode and clears the secret, the second toggle returns to
secret mode without restoring it. -/
theorem claim_C10_witness :
    ((⟨("h"), ("u"), ("secret"), false, ("k"), ConfigField.UseSSHKey, none⟩ :
        ConfigScreen).toggle_ssh_key).use_ssh_key = !false
    ∧ (((⟨("h"), ("u"), ("secret"), false, ("k"), ConfigField.UseSSHKey, none⟩ :
        ConfigScreen).toggle_ssh_key).toggle_ssh_key).password = ("") := by
  obtain ⟨h1, h2, h3, h4, h5, h6, h7, h8⟩ := claim_C10
    (⟨("h"), ("u"), ("secret"), false, ("k"), ConfigField.UseSSHKey, none⟩ : ConfigScreen) rfl
  exact ⟨h1, h8 rfl⟩

/-- C1 counterexample: starting from Connecting, a user cancel (Esc)
returns the workflow to Config, but a late successful initial fetch then
commits Monitoring and merges the batch anyway — the initial-fetch merge
does not check the workflow at merge time, so the claim as stated is false
on this interleaving. -/
theorem claim_C1_counterexample :
    ((App.handleEscKey
        ⟨AppState.Connecting, ⟨("h"), ("u"), ("p"), false, ("k"), ConfigField.Host, none⟩,
          [], [], 0, SortBy.Cpu, false⟩).state = AppState.Config)
    ∧ ((App.initialFetchOk
        (App.handleEscKey
          ⟨AppState.Connecting, ⟨("h"), ("u"), ("p"), false, ("k"), ConfigField.Host, none⟩,
            [], [], 0, SortBy.Cpu, false⟩)
        [⟨("alice"), F64.num 1, F64.num 2, 1⟩] 1).map (fun a => a.state)
      = some AppState.Monitoring)
    ∧ ((App.initialFetchOk
        (App.handleEscKey
          ⟨AppState.Connecting, ⟨("h"), ("u"), ("p"), false, ("k"), ConfigField.Host, none⟩,
            [], [], 0, SortBy.Cpu, false⟩)
        [⟨("alice"), F64.num 1, F64.num 2, 1⟩] 1).map (fun a => a.users.length)
      = some 1) := by
  refine ⟨rfl, ?_, ?_⟩ <;> decide

/-- C1 amended: only the background polling loop's merge checks the
workflow at merge time — a background result arriving when the workflow has
left Monitoring is discarded with the App unchanged; the initial-fetch
merge performs no such check and always commits Monitoring and merges the
batch, regardless of an intervening cancel. -/
theorem claim_C1_amended (app : App) (batch : List UserStats) (now : Nat) :
    (app.state ≠ AppState.Monitoring → App.bgPollOk app batch now = some app) ∧
    (∀ app', App.initialFetchOk app batch now = some app' →
      app'.state = AppState.Monitoring ∧ app'.users.length = batch.length) := by
  constructor
  · intro h
    rw [App.bgPollOk, if_neg h]
  · intro app' h
    rw [App.initialFetchOk, update_data?_eq] at h
    cases hs : sortByDesc? (sortKeyOf app.sort_by) batch with
    | none => rw [hs] at h; simp at h
    | some us =>
      rw [hs] at h
      simp at h
      have hlen := sortByDesc?_length (sortKeyOf app.sort_by) hs
      constructor
      · rw [← h]
      · rw [← h]
        simpa using hlen

/-- Witness for the amended C1: a concrete late background result at a
Config-state App is discarded unchanged, and a concrete initial-fetch
success commits Monitoring. -/
theorem claim_C1_witness :
    (App.bgPollOk
        ⟨AppState.Config, ⟨("h"), ("u"), ("p"), false, ("k"), ConfigField.Host, none⟩,
          [], [], 0, SortBy.Cpu, false⟩
        [⟨("x"), F64.num 1, F64.num 1, 0⟩] 5
      = some ⟨AppState.Config, ⟨("h"), ("u"), ("p"), false, ("k"), ConfigField.Host, none⟩,
          [], [], 0, SortBy.Cpu, false⟩)
    ∧ ((App.initialFetchOk
        ⟨AppState.Connecting, ⟨("h"), ("u"), ("p"), false, ("k"), ConfigField.Host, none⟩,
          [], [], 0, SortBy.Cpu, false⟩
        [⟨("x"), F64.num 1, F64.num 1, 0⟩] 5).elim False
        (fun a => a.state = AppState.Monitoring)) := by
  constructor
  · exact (claim_C1_amended
      ⟨AppState.Config, ⟨("h"), ("u"), ("p"), false, ("k"), ConfigField.Host, none⟩,
        [], [], 0, SortBy.Cpu, false⟩
      [⟨("x"), F64.num 1, F64.num 1, 0⟩] 5).1 (by decide)
  · cases hv : App.initialFetchOk
      ⟨AppState.Connecting, ⟨("h"), ("u"), ("p"), false, ("k"), ConfigField.Host, none⟩,
        [], [], 0, SortBy.Cpu, false⟩
      [⟨("x"), F64.num 1, F64.num 1, 0⟩] 5 with
    | none => exact absurd hv (by decide)
    | some a =>
      simpa using ((claim_C1_amended
        ⟨AppState.Connecting, ⟨("h"), ("u"), ("p"), false, ("k"), ConfigField.Host, none⟩,
          [], [], 0, SortBy.Cpu, false⟩
        [⟨("x"), F64.num 1, F64.num 1, 0⟩] 5).2 a hv).1

/-- C3 counterexample: the token nan parses to NaN under Rust's float
parsing (it is not an unparsable token, so unwrap_or(0.0) does not fire);
the descending sort then reaches partial_cmp on an incomparable pair and
the modelled unwrap panics: the whole fetch aborts on this raw output. -/
theorem claim_C3_counterexample :
    parseF64 ("nan") = some F64.nan
    ∧ ssh_get_user_stats_pure ("alice nan 1.0\nbob 2.0 3.0") 0 = none := by
  constructor <;> decide

/-- C3 amended: parsing itself never aborts (lines with fewer than 3 tokens
are dropped, unparsable numeric tokens default to 0.0), and the descending
sorts — the fetch's cpu sort and sort_users after a merge — succeed
whenever no parsed metric value is NaN; a token such as nan, which Rust's
float parser accepts, produces an incomparable value on which the sort's
unwrap is reached and the poll aborts. -/
theorem claim_C3_amended (output : String) (now : Nat) (app : App) :
    ((∀ u ∈ parseUserStats output now, u.cpu_percent ≠ F64.nan) →
      (ssh_get_user_stats_pure output now).isSome) ∧
    ((∀ u ∈ app.users, sortKeyOf app.sort_by u ≠ F64.nan) →
      (App.sort_users? app).isSome) := by
  constructor
  · intro h
    obtain ⟨l', hsort, _, _, _⟩ :=
      sortByDesc?_spec (fun u => u.cpu_percent) (parseUserStats output now) h
    rw [ssh_get_user_stats_pure, hsort]
    rfl
  · intro h
    obtain ⟨us, hsort, _, _, _⟩ := sortByDesc?_spec (sortKeyOf app.sort_by) app.users h
    rw [sort_users?_eq, hsort]
    rfl

/-- Witness for the amended C3: a concrete NaN-free output (with one
malformed line) parses and sorts successfully. -/
theorem claim_C3_witness :
    (ssh_get_user_stats_pure ("alice 1 2\nbad") 0).isSome :=
  (claim_C3_amended ("alice 1 2\nbad") 0
    ⟨AppState.Config, ⟨("h"), ("u"), ("p"), false, ("k"), ConfigField.Host, none⟩,
      [], [], 0, SortBy.Cpu, false⟩).1 (by decide)

/-- C9 counterexample: the parser emits one sample per well-formed line
with no deduplication, so a raw output repeating a username yields two
samples with the same username in one batch. -/
theorem claim_C9_counterexample :
    (parseUserStats ("alice 1 2\nalice 3 4") 0).map (fun u => u.username)
      = [("alice"), ("alice")]
    ∧ ¬ ((parseUserStats ("alice 1 2\nalice 3 4") 0).map (fun u => u.username)).Nodup := by
  constructor <;> decide

/-- C9 amended: a batch has pairwise-distinct usernames exactly when the
first tokens of the well-formed lines of the raw output are pairwise
distinct (which the remote awk aggregation guarantees in practice); the
parser itself performs no deduplication. -/
theorem claim_C9_amended (output : String) (now : Nat)
    (h : (((rustLines output).filter (fun l => decide (3 ≤ (splitWhitespaceRs l).length))).map
        (fun l => (splitWhitespaceRs l).headD (""))).Nodup) :
    ((parseUserStats output now).map (fun u => u.username)).Nodup := by
  rw [parseUserStats_eq_filterMap, filterMap_parse_usernames]
  exact h

/-- Witness for the amended C9: a concrete output with distinct first
tokens yields a batch with pairwise-distinct usernames. -/
theorem claim_C9_witness :
    ((parseUserStats ("alice 1 2\nbob 3 4") 7).map (fun u => u.username)).Nodup :=
  claim_C9_amended ("alice 1 2\nbob 3 4") 7 (by decide)

/-- C4 counterexample: a reachable event sequence — initial fetch with two
users, select the second row, then a background poll whose batch has one
user — leaves users non-empty with selected_user = 1 ≥ length 1: the code
never clamps or resets selected_user when update_data shrinks the list, so
the claimed invariant is false. -/
theorem claim_C4_counterexample :
    ((((App.initialFetchOk
          ⟨AppState.Connecting, ⟨("h"), ("u"), ("p"), false, ("k"), ConfigField.Host, none⟩,
            [], [], 0, SortBy.Cpu, false⟩
          [⟨("alice"), F64.num 2, F64.num 2, 0⟩, ⟨("bob"), F64.num 1, F64.num 1, 0⟩] 0).map
        App.next_user).bind
        (fun a => App.bgPollOk a [⟨("carol"), F64.num 5, F64.num 5, 1⟩] 1)).map
      (fun a => decide (a.users ≠ [])) = some true)
    ∧ ((((App.initialFetchOk
          ⟨AppState.Connecting, ⟨("h"), ("u"), ("p"), false, ("k"), ConfigField.Host, none⟩,
            [], [], 0, SortBy.Cpu, false⟩
          [⟨("alice"), F64.num 2, F64.num 2, 0⟩, ⟨("bob"), F64.num 1, F64.num 1, 0⟩] 0).map
        App.next_user).bind
        (fun a => App.bgPollOk a [⟨("carol"), F64.num 5, F64.num 5, 1⟩] 1)).map
      (fun a => decide (a.selected_user < a.users.length)) = some false) := by
  constructor <;> decide

/-- C4 amended: next_user establishes the range invariant whenever the list
is non-empty, previous_user and set_sort preserve it, and update_data
yields an in-range selection exactly when the old selected_user is below
the new batch's length — a shorter batch leaves selected_user out of range;
exiting Monitoring clears the list but leaves selected_user unchanged. -/
theorem claim_C4_amended (app : App) :
    (app.users ≠ [] →
      (App.next_user app).selected_user < (App.next_user app).users.length) ∧
    (app.selected_user < app.users.length →
      (App.previous_user app).selected_user < (App.previous_user app).users.length) ∧
    (∀ (k : SortBy) (app' : App), App.set_sort? app k = some app' →
      app.selected_user < app.users.length →
      app'.selected_user < app'.users.length) ∧
    (∀ (batch : List UserStats) (now : Nat) (app' : App),
      App.update_data? app batch now = some app' →
      (app'.selected_user < app'.users.length ↔ app.selected_user < batch.length)) ∧
    (app.state = AppState.Monitoring →
      (App.handleEscKey app).users = []
        ∧ (App.handleEscKey app).selected_user = app.selected_user) := by
  refine ⟨?_, ?_, ?_, ?_, ?_⟩
  · intro h
    have hp : 0 < app.users.length := List.length_pos.mpr h
    rw [App.next_user, length_pos_isEmpty_false hp]
    simpa using Nat.mod_lt _ hp
  · intro h
    have hp : 0 < app.users.length := Nat.lt_of_le_of_lt (Nat.zero_le _) h
    rw [App.previous_user, length_pos_isEmpty_false hp]
    simp only [Bool.false_eq_true, if_false]
    by_cases h0 : 0 < app.selected_user
    · rw [if_pos h0]
      simp only []
      omega
    · rw [if_neg h0]
      simp only []
      omega
  · intro k app' h hlt
    rw [App.set_sort?, sort_users?_eq] at h
    cases hs : sortByDesc? (sortKeyOf k) app.users with
    | none => rw [hs] at h; simp at h
    | some us =>
      rw [hs] at h
      simp at h
      have hlen := sortByDesc?_length (sortKeyOf k) hs
      rw [← h]
      simpa [hlen] using hlt
  · intro batch now app' h
    rw [update_data?_eq] at h
    cases hs : sortByDesc? (sortKeyOf app.sort_by) batch with
    | none => rw [hs] at h; simp at h
    | some us =>
      rw [hs] at h
      simp at h
      have hlen := sortByDesc?_length (sortKeyOf app.sort_by) hs
      rw [← h]
      simp [hlen]
  · intro h
    simp [App.handleEscKey, h]

/-- Witness for the amended C4: at a concrete one-user state with
selected_user 0, next_user stays in range and a one-user update_data keeps
the selection in range. -/
theorem claim_C4_witness :
    ((App.next_user
        ⟨AppState.Monitoring, ⟨("h"), ("u"), ("p"), false, ("k"), ConfigField.Host, none⟩,
          [⟨("alice"), F64.num 2, F64.num 2, 0⟩], [], 0, SortBy.Cpu, false⟩).selected_user
      < (App.next_user
        ⟨AppState.Monitoring, ⟨("h"), ("u"), ("p"), false, ("k"), ConfigField.Host, none⟩,
          [⟨("alice"), F64.num 2, F64.num 2, 0⟩], [], 0, SortBy.Cpu, false⟩).users.length)
    ∧ ((App.update_data?
        ⟨AppState.Monitoring, ⟨("h"), ("u"), ("p"), false, ("k"), ConfigField.Host, none⟩,
          [⟨("alice"), F64.num 2, F64.num 2, 0⟩], [], 0, SortBy.Cpu, false⟩
        [⟨("carol"), F64.num 5, F64.num 5, 1⟩] 1).elim False
        (fun a => a.selected_user < a.users.length)) := by
  obtain ⟨h1, h2, h3, h4, h5⟩ := claim_C4_amended
    ⟨AppState.Monitoring, ⟨("h"), ("u"), ("p"), false, ("k"), ConfigField.Host, none⟩,
      [⟨("alice"), F64.num 2, F64.num 2, 0⟩], [], 0, SortBy.Cpu, false⟩
  refine ⟨h1 (by decide), ?_⟩
  cases hv : App.update_data?
      ⟨AppState.Monitoring, ⟨("h"), ("u"), ("p"), false, ("k"), ConfigField.Host, none⟩,
        [⟨("alice"), F64.num 2, F64.num 2, 0⟩], [], 0, SortBy.Cpu, false⟩
      [⟨("carol"), F64.num 5, F64.num 5, 1⟩] 1 with
  | none => exact absurd hv (by decide)
  | some a =>
    simpa using (h4 [⟨("carol"), F64.num 5, F64.num 5, 1⟩] 1 a hv).mpr (by decide)
